import Mathlib

/-!
Verification of the effect-forms core: the FormData record codec
(toRecord / fromFormDataRecord), the field/model capability constraint,
the validation-issue collector (collectActualValues), the result merger
(FormModelFormatter.formatIssue) and the decode orchestrator
(decodeFormModel), shallowly embedded from the TypeScript sources.
-/

set_option autoImplicit false

namespace EffectForms

/-- A FormData entry value (TS FormDataEntryValue = string | File):
a scalar string or an opaque file handle, modelled by a numeric
identity so that distinct handles can be told apart. -/
inductive EntryVal : Type where
  | str (s : String)
  | file (id : Nat)
deriving DecidableEq

instance : Inhabited EntryVal := ⟨.str ""⟩

/-- A runtime JavaScript value as inspected by fromFormDataRecord:
an entry value, a nullish value (null or undefined, exactly the values
for which the loose equality test with null succeeds), or any other
scalar carried together with its String() representation. -/
inductive JsVal : Type where
  | entry (e : EntryVal)
  | nullish
  | other (repr : String)
deriving DecidableEq

/-- A value of a FormData record: a single value or an array of values
(TS FormDataCoercibleValue, at runtime possibly holding nullish or
non-coercible scalars that the encode direction inspects). -/
inductive RecValue : Type where
  | single (v : JsVal)
  | arr (items : List JsVal)
deriving DecidableEq

/-- A FormData record (TS Record of string keys, in insertion order,
keys pairwise distinct as for any JS object). -/
abbrev FormDataRecord : Type := List (String × RecValue)

/-- A FormData object: its ordered list of (key, value) entries;
append adds at the end, entries() iterates in insertion order. -/
abbrev FormDataM : Type := List (String × EntryVal)

/-- The per-element coercion performed by fromFormDataRecord:
nullish elements are skipped, File instances pass through unchanged,
every other value is coerced by String(). -/
def coerce : JsVal → Option EntryVal
  | .nullish => none
  | .entry (.file i) => some (.file i)
  | .entry (.str s) => some (.str s)
  | .other r => some (.str r)

/-- The reducer body of fromFormDataRecord: an array value appends one
coerced entry per non-nullish element in order, a non-nullish single
value appends one coerced entry, a nullish single value appends
nothing. -/
def appendValue (acc : FormDataM) (key : String) (value : RecValue) : FormDataM :=
  match value with
  | .arr items =>
      items.foldl
        (fun a item =>
          match coerce item with
          | none => a
          | some e => a ++ [(key, e)])
        acc
  | .single v =>
      match coerce v with
      | none => acc
      | some e => acc ++ [(key, e)]

/-- fromFormDataRecord (src FormData source, lines 66-77): a
Record.reduce over the input record starting from an empty FormData,
appending the entries contributed by each binding in record order. -/
def fromFormDataRecord (input : FormDataRecord) : FormDataM :=
  input.foldl (fun acc kv => appendValue acc kv.1 kv.2) []

/-- The block of submission entries contributed by one record binding:
specification-side restatement of one step of fromFormDataRecord. -/
def entriesFor (key : String) (value : RecValue) : FormDataM :=
  match value with
  | .arr items => (items.filterMap coerce).map (fun e => (key, e))
  | .single v =>
      match coerce v with
      | none => []
      | some e => [(key, e)]

/-- Keys of a list in first-seen order, each kept once: the key order
produced by grouping (Array.groupBy builds its groups in first-seen
key order, and Object.entries preserves that insertion order). -/
def firstSeen : List String → List String
  | [] => []
  | k :: rest => k :: firstSeen (rest.filter (fun x => x != k))
termination_by l => l.length
decreasing_by
  simp only [List.length_cons]
  exact Nat.lt_succ_of_le (List.length_filter_le _ _)

/-- The ordered values grouped under one key: Array.groupBy collects,
for each key, all entries with that key in encounter order. -/
def groupValues (fd : FormDataM) (k : String) : List EntryVal :=
  (fd.filter (fun p => p.1 == k)).map Prod.snd

/-- toRecord (src FormData source, lines 50-59): group the FormData
entries by key, then for each group store the bare value when the
group has exactly one entry and the ordered list of values otherwise. -/
def toRecord (fd : FormDataM) : FormDataRecord :=
  (firstSeen (fd.map Prod.fst)).map (fun k =>
    (k, if (groupValues fd k).length = 1
        then RecValue.single (.entry (groupValues fd k).headI)
        else RecValue.arr ((groupValues fd k).map .entry)))

/-- First-match lookup in an association list, the access discipline of
both JS Map.get and property reads on a JS object (keys are unique in
both, so the first match is the only one). -/
def mapGet {β : Type} (m : List (String × β)) (k : String) : Option β :=
  (m.find? (fun p => p.1 == k)).map Prod.snd

/-- Key update of an association list following JS Map.set / object
assignment: an existing key has its value replaced in place, a new key
is appended at the end. -/
def mapSet {β : Type} (m : List (String × β)) (k : String) (v : β) :
    List (String × β) :=
  if m.any (fun p => p.1 == k)
  then m.map (fun p => if p.1 == k then (k, v) else p)
  else m ++ [(k, v)]

/-- A value satisfying the Record data-model invariant: a single
coercible entry, or a list of coercible entries of length at least
two (never empty, never a singleton, never nullish or non-coercible). -/
def isEntryVal : JsVal → Bool
  | .entry _ => true
  | _ => false

def wfValue : RecValue → Bool
  | .single v => isEntryVal v
  | .arr items => decide (2 ≤ items.length) && items.all isEntryVal

theorem coerce_entry (e : EntryVal) : coerce (.entry e) = some e := by
  cases e <;> rfl

theorem foldl_coerce_eq (key : String) (items : List JsVal) (acc : FormDataM) :
    items.foldl
      (fun a item =>
        match coerce item with
        | none => a
        | some e => a ++ [(key, e)])
      acc
    = acc ++ (items.filterMap coerce).map (fun e => (key, e)) := by
  induction items generalizing acc with
  | nil => simp
  | cons i is ih =>
      cases h : coerce i with
      | none => simp [List.foldl_cons, h, List.filterMap_cons, ih]
      | some e => simp [List.foldl_cons, h, List.filterMap_cons, ih]

theorem appendValue_eq (acc : FormDataM) (k : String) (v : RecValue) :
    appendValue acc k v = acc ++ entriesFor k v := by
  cases v with
  | arr items => simp [appendValue, entriesFor, foldl_coerce_eq]
  | single v => cases h : coerce v <;> simp [appendValue, entriesFor, h]

theorem foldl_append_of_step {γ δ : Type} (f : List δ → γ → List δ) (g : γ → List δ)
    (hstep : ∀ acc x, f acc x = acc ++ g x) (l : List γ) (acc : List δ) :
    l.foldl f acc = acc ++ l.flatMap g := by
  induction l generalizing acc with
  | nil => simp
  | cons x xs ih =>
      rw [List.foldl_cons, hstep, List.flatMap_cons, ih, List.append_assoc]

/-- fromFormDataRecord concatenates, in record order, the entry block
contributed by each binding. -/
theorem fromFormDataRecord_eq (input : FormDataRecord) :
    fromFormDataRecord input = input.flatMap (fun p => entriesFor p.1 p.2) := by
  rw [fromFormDataRecord,
    foldl_append_of_step _ (fun p => entriesFor p.1 p.2)
      (fun acc kv => appendValue_eq acc kv.1 kv.2) input []]
  rfl

theorem entriesFor_key (k : String) (v : RecValue) :
    ∀ p ∈ entriesFor k v, p.1 = k := by
  intro p hp
  cases v with
  | arr items =>
      simp only [entriesFor, List.mem_map] at hp
      obtain ⟨e, -, rfl⟩ := hp
      rfl
  | single v =>
      cases hc : coerce v <;> simp [entriesFor, hc] at hp
      subst hp
      rfl

theorem mem_fromFormDataRecord_key (r : FormDataRecord) :
    ∀ p ∈ fromFormDataRecord r, p.1 ∈ r.map Prod.fst := by
  intro p hp
  rw [fromFormDataRecord_eq] at hp
  obtain ⟨q, hq, hpq⟩ := List.mem_flatMap.mp hp
  rw [entriesFor_key q.1 q.2 p hpq]
  exact List.mem_map_of_mem Prod.fst hq

theorem filter_entriesFor_self (k : String) (v : RecValue) :
    (entriesFor k v).filter (fun p => p.1 == k) = entriesFor k v := by
  rw [List.filter_eq_self]
  intro p hp
  simp [entriesFor_key k v p hp]

theorem filter_entriesFor_ne (k k' : String) (v : RecValue) (hne : k ≠ k') :
    (entriesFor k v).filter (fun p => p.1 == k') = [] := by
  rw [List.filter_eq_nil_iff]
  intro p hp
  simp [entriesFor_key k v p hp, hne]

theorem filter_flatMap_list {γ δ : Type} (l : List γ) (g : γ → List δ) (p : δ → Bool) :
    (l.flatMap g).filter p = l.flatMap (fun x => (g x).filter p) := by
  induction l with
  | nil => rfl
  | cons x xs ih => simp [List.flatMap_cons, List.filter_append, ih]

theorem flatMap_eq_nil_of {γ δ : Type} (l : List γ) (g : γ → List δ)
    (h : ∀ x ∈ l, g x = []) : l.flatMap g = [] := by
  induction l with
  | nil => rfl
  | cons x xs ih =>
      rw [List.flatMap_cons, h x (by simp), List.nil_append]
      exact ih (fun y hy => h y (by simp [hy]))

theorem blocks_filter (k : String) (v : RecValue) :
    ∀ r : FormDataRecord, (r.map Prod.fst).Nodup → (k, v) ∈ r →
      r.flatMap (fun x => (entriesFor x.1 x.2).filter (fun p => p.1 == k))
        = entriesFor k v := by
  intro r
  induction r with
  | nil => intro _ h; cases h
  | cons q rest ih =>
      intro hnd hmem
      rw [List.map_cons, List.nodup_cons] at hnd
      obtain ⟨hq, hrest⟩ := hnd
      rw [List.flatMap_cons]
      rcases List.mem_cons.mp hmem with heq | htail
      · subst heq
        dsimp only
        rw [filter_entriesFor_self]
        rw [flatMap_eq_nil_of _ _ (fun x hx => by
          have hxmem : x.1 ∈ rest.map Prod.fst := List.mem_map_of_mem Prod.fst hx
          refine filter_entriesFor_ne x.1 k x.2 (fun hxk => hq ?_)
          show k ∈ rest.map Prod.fst
          rw [← hxk]
          exact hxmem)]
        rw [List.append_nil]
      · have hne : q.1 ≠ k := fun h => by
          apply hq
          rw [h]
          have : (k, v).1 ∈ rest.map Prod.fst := List.mem_map_of_mem Prod.fst htail
          exact this
        rw [filter_entriesFor_ne q.1 k q.2 hne, List.nil_append]
        exact ih hrest htail

/-- Under distinct record keys, the group of entries collected for a
bound key is exactly the block that binding contributed. -/
theorem filter_fromFormDataRecord (r : FormDataRecord)
    (hnd : (r.map Prod.fst).Nodup) (k : String) (v : RecValue)
    (hmem : (k, v) ∈ r) :
    (fromFormDataRecord r).filter (fun p => p.1 == k) = entriesFor k v := by
  rw [fromFormDataRecord_eq, filter_flatMap_list]
  exact blocks_filter k v r hnd hmem

theorem firstSeen_cons (k : String) (l : List String) :
    firstSeen (k :: l) = k :: firstSeen (l.filter (fun x => x != k)) := by
  rw [firstSeen]

theorem firstSeen_cons_blocks (k : String) (b t : List String)
    (hb : ∀ x ∈ b, x = k) (hbne : b ≠ []) (ht : k ∉ t) :
    firstSeen (b ++ t) = k :: firstSeen t := by
  cases b with
  | nil => exact absurd rfl hbne
  | cons x b2 =>
      have hx : x = k := hb x (List.mem_cons_self x b2)
      rw [hx, List.cons_append, firstSeen_cons]
      congr 1
      rw [List.filter_append]
      have h1 : b2.filter (fun y => y != k) = [] := by
        rw [List.filter_eq_nil_iff]
        intro y hy
        simp [hb y (List.mem_cons_of_mem x hy)]
      have h2 : t.filter (fun y => y != k) = t := by
        rw [List.filter_eq_self]
        intro y hy
        simp only [bne_iff_ne, ne_eq, decide_eq_true_eq]
        exact fun h => ht (h ▸ hy)
      rw [h1, h2, List.nil_append]

theorem firstSeen_blocks :
    ∀ r : FormDataRecord, (r.map Prod.fst).Nodup →
      (∀ p ∈ r, entriesFor p.1 p.2 ≠ []) →
      firstSeen ((r.flatMap (fun p => entriesFor p.1 p.2)).map Prod.fst)
        = r.map Prod.fst := by
  intro r
  induction r with
  | nil => intro _ _; simp only [List.flatMap_nil, List.map_nil, firstSeen]
  | cons q rest ih =>
      intro hnd hne
      rw [List.map_cons, List.nodup_cons] at hnd
      obtain ⟨hq, hrest⟩ := hnd
      have hb : ∀ x ∈ (entriesFor q.1 q.2).map Prod.fst, x = q.1 := by
        intro x hx
        obtain ⟨p, hp, rfl⟩ := List.mem_map.mp hx
        exact entriesFor_key q.1 q.2 p hp
      have hbne : (entriesFor q.1 q.2).map Prod.fst ≠ [] := by
        intro h
        exact hne q (List.mem_cons_self q rest) (List.map_eq_nil_iff.mp h)
      have hnt : q.1 ∉ (rest.flatMap (fun p => entriesFor p.1 p.2)).map Prod.fst := by
        intro hmem
        obtain ⟨x, hx, hxk⟩ := List.mem_map.mp hmem
        obtain ⟨p, hp, hxp⟩ := List.mem_flatMap.mp hx
        apply hq
        rw [← hxk, entriesFor_key p.1 p.2 x hxp]
        exact List.mem_map_of_mem Prod.fst hp
      rw [List.flatMap_cons, List.map_append,
        firstSeen_cons_blocks q.1 _ _ hb hbne hnt, List.map_cons]
      congr 1
      exact ih hrest (fun p hp => hne p (List.mem_cons_of_mem q hp))

theorem filterMap_coerce_of_all (items : List JsVal) :
    items.all isEntryVal = true →
    (items.filterMap coerce).map JsVal.entry = items ∧
    (items.filterMap coerce).length = items.length := by
  induction items with
  | nil => intro _; exact ⟨rfl, rfl⟩
  | cons i is ih =>
      intro h
      rw [List.all_cons, Bool.and_eq_true] at h
      obtain ⟨hi, his⟩ := h
      obtain ⟨ih1, ih2⟩ := ih his
      cases i with
      | entry e => simp [List.filterMap_cons, coerce_entry, ih1, ih2]
      | nullish => simp [isEntryVal] at hi
      | other s => simp [isEntryVal] at hi

theorem entriesFor_wf_single (k : String) (e : EntryVal) :
    entriesFor k (.single (.entry e)) = [(k, e)] := by
  simp [entriesFor, coerce_entry]

theorem entriesFor_arr_snd (k : String) (items : List JsVal) :
    (entriesFor k (.arr items)).map Prod.snd = items.filterMap coerce := by
  simp [entriesFor, List.map_map, Function.comp_def]

theorem map_eq_self_of {γ : Type} (l : List γ) (f : γ → γ)
    (h : ∀ x ∈ l, f x = x) : l.map f = l := by
  induction l with
  | nil => rfl
  | cons x xs ih =>
      rw [List.map_cons, h x (List.mem_cons_self x xs),
        ih (fun y hy => h y (List.mem_cons_of_mem x hy))]

/-- C1: for a Record (distinct keys, every value either a single
coercible entry or a list of at least two coercible entries, with no
nullish entries anywhere), encoding to FormData and grouping back is
the identity. -/
theorem toRecord_fromRecord_roundTrip (r : FormDataRecord)
    (hnd : (r.map Prod.fst).Nodup)
    (hwf : ∀ p ∈ r, wfValue p.2 = true) :
    toRecord (fromFormDataRecord r) = r := by
  have hne : ∀ p ∈ r, entriesFor p.1 p.2 ≠ [] := by
    intro p hp
    have hw := hwf p hp
    cases hv : p.2 with
    | single sv =>
        rw [hv] at hw
        cases sv with
        | entry e => simp [entriesFor_wf_single]
        | nullish => simp [wfValue, isEntryVal] at hw
        | other s => simp [wfValue, isEntryVal] at hw
    | arr items =>
        rw [hv] at hw
        rw [wfValue, Bool.and_eq_true, decide_eq_true_eq] at hw
        obtain ⟨hlen, hall⟩ := hw
        obtain ⟨-, hlene⟩ := filterMap_coerce_of_all items hall
        intro hnil
        have : ((entriesFor p.1 (.arr items)).map Prod.snd).length = 0 := by
          rw [hnil]
          rfl
        rw [entriesFor_arr_snd, hlene] at this
        omega
  have hfs : firstSeen ((fromFormDataRecord r).map Prod.fst) = r.map Prod.fst := by
    rw [fromFormDataRecord_eq]
    exact firstSeen_blocks r hnd hne
  rw [toRecord, hfs, List.map_map]
  apply map_eq_self_of
  intro p hp
  obtain ⟨k, v⟩ := p
  have hmem : (k, v) ∈ r := hp
  have hgv : groupValues (fromFormDataRecord r) k = (entriesFor k v).map Prod.snd := by
    rw [groupValues, filter_fromFormDataRecord r hnd k v hmem]
  have hw := hwf (k, v) hp
  simp only [Function.comp_apply]
  cases v with
  | single sv =>
      cases sv with
      | entry e =>
          rw [hgv, entriesFor_wf_single]
          simp
      | nullish => simp [wfValue, isEntryVal] at hw
      | other s => simp [wfValue, isEntryVal] at hw
  | arr items =>
      rw [wfValue, Bool.and_eq_true, decide_eq_true_eq] at hw
      obtain ⟨hlen, hall⟩ := hw
      obtain ⟨hmape, hlene⟩ := filterMap_coerce_of_all items hall
      rw [hgv, entriesFor_arr_snd, hlene,
        if_neg (by omega : ¬ items.length = 1), hmape]

theorem mem_firstSeen (k : String) :
    ∀ l : List String, (k ∈ firstSeen l ↔ k ∈ l) := by
  intro l
  induction l using firstSeen.induct with
  | case1 => simp [firstSeen]
  | case2 x rest ih =>
      rw [firstSeen_cons]
      by_cases hxk : k = x
      · subst hxk
        simp
      · have hf : k ∈ rest.filter (fun y => y != x) ↔ k ∈ rest := by
          rw [List.mem_filter]
          simp [hxk]
        simp only [List.mem_cons]
        rw [ih, hf]

theorem mapGet_map_keyed {β : Type} (l : List String) (f : String → String × β)
    (k : String) (hf : ∀ x, (f x).1 = x) (hk : k ∈ l) :
    mapGet (l.map f) k = some (f k).2 := by
  induction l with
  | nil => cases hk
  | cons x xs ih =>
      by_cases hxk : x = k
      · subst hxk
        have hc : ((f x).1 == x) = true := by simp [hf x]
        simp [mapGet, List.find?_cons, hc]
      · have hc : ((f x).1 == k) = false := by simp [hf x, hxk]
        rcases List.mem_cons.mp hk with h | h
        · exact absurd h.symm hxk
        · rw [List.map_cons]
          unfold mapGet
          rw [List.find?_cons, hc]
          exact ih h

theorem groupValues_ne_nil_iff (fd : FormDataM) (k : String) :
    groupValues fd k ≠ [] ↔ k ∈ fd.map Prod.fst := by
  rw [groupValues]
  constructor
  · intro h
    cases hf : fd.filter (fun p => p.1 == k) with
    | nil => rw [hf] at h; simp at h
    | cons q qs =>
        have hqmem : q ∈ fd.filter (fun p => p.1 == k) := by
          rw [hf]
          exact List.mem_cons_self q qs
        rw [List.mem_filter] at hqmem
        obtain ⟨hq, hqk⟩ := hqmem
        have hqk2 : q.1 = k := by simpa using hqk
        rw [← hqk2]
        exact List.mem_map_of_mem Prod.fst hq
  · intro h hnil
    obtain ⟨p, hp, hpk⟩ := List.mem_map.mp h
    have hpf : p ∈ fd.filter (fun q => q.1 == k) := by
      rw [List.mem_filter]
      exact ⟨hp, by simp [hpk]⟩
    rw [List.map_eq_nil_iff] at hnil
    rw [hnil] at hpf
    cases hpf

/-- C2: toRecord groups entries by key in first-seen key order; a key
with exactly one entry maps to the bare value, a key with two or more
entries maps to the ordered list of its values in append order, and no
key ever maps to an empty list. -/
theorem toRecord_grouping (fd : FormDataM) :
    ((toRecord fd).map Prod.fst = firstSeen (fd.map Prod.fst)) ∧
    (∀ k v, groupValues fd k = [v] →
      mapGet (toRecord fd) k = some (RecValue.single (.entry v))) ∧
    (∀ k, 2 ≤ (groupValues fd k).length →
      mapGet (toRecord fd) k = some (RecValue.arr ((groupValues fd k).map .entry))) ∧
    (∀ k val, (k, val) ∈ toRecord fd → val ≠ RecValue.arr []) := by
  refine ⟨?_, ?_, ?_, ?_⟩
  · simp [toRecord, List.map_map, Function.comp_def]
  · intro k v h
    have hk : k ∈ firstSeen (fd.map Prod.fst) := by
      rw [mem_firstSeen]
      rw [← groupValues_ne_nil_iff fd k, h]
      simp
    unfold toRecord
    rw [mapGet_map_keyed _ _ k (fun x => rfl) hk]
    simp [h]
  · intro k hlen
    have hk : k ∈ firstSeen (fd.map Prod.fst) := by
      rw [mem_firstSeen]
      rw [← groupValues_ne_nil_iff fd k]
      intro hnil
      rw [hnil] at hlen
      simp at hlen
    unfold toRecord
    rw [mapGet_map_keyed _ _ k (fun x => rfl) hk]
    simp [if_neg (by omega : ¬ (groupValues fd k).length = 1)]
  · intro k val hmem
    unfold toRecord at hmem
    obtain ⟨x, hx, hxe⟩ := List.mem_map.mp hmem
    have hgk : groupValues fd x ≠ [] := by
      rw [groupValues_ne_nil_iff]
      exact (mem_firstSeen x _).mp hx
    have hval : val = if (groupValues fd x).length = 1
        then RecValue.single (.entry (groupValues fd x).headI)
        else RecValue.arr ((groupValues fd x).map .entry) :=
      (congrArg Prod.snd hxe).symm
    by_cases h1 : (groupValues fd x).length = 1
    · rw [hval, if_pos h1]
      simp
    · rw [hval, if_neg h1]
      intro hcon
      apply hgk
      have := RecValue.arr.inj hcon
      exact List.map_eq_nil_iff.mp this

/-- C10: a record binding a key to a one-element list of one coercible
value round-trips to the bare element, not the one-element list. -/
theorem singleton_list_collapse (r : FormDataRecord)
    (hnd : (r.map Prod.fst).Nodup) (k : String) (e : EntryVal)
    (hmem : (k, RecValue.arr [JsVal.entry e]) ∈ r) :
    mapGet (toRecord (fromFormDataRecord r)) k
      = some (RecValue.single (.entry e)) := by
  have hgv : groupValues (fromFormDataRecord r) k = [e] := by
    rw [groupValues, filter_fromFormDataRecord r hnd k _ hmem]
    simp [entriesFor, coerce_entry]
  have hk : k ∈ (fromFormDataRecord r).map Prod.fst := by
    rw [← groupValues_ne_nil_iff, hgv]
    simp
  unfold toRecord
  rw [mapGet_map_keyed _ _ k (fun x => rfl) ((mem_firstSeen k _).mpr hk)]
  simp [hgv]

/-- C3: fromFormDataRecord is the concatenation, in record order, of
each binding's entries; a coercible scalar appends one entry (files
unchanged, other scalars String()-coerced), a nullish scalar appends
nothing, a list appends one coerced entry per non-nullish element in
list order, and absent keys contribute no entries. -/
theorem fromRecord_behaviour :
    (∀ r : FormDataRecord,
      fromFormDataRecord r = r.flatMap (fun p => entriesFor p.1 p.2)) ∧
    (∀ k s, entriesFor k (.single (.entry (.str s))) = [(k, .str s)]) ∧
    (∀ k i, entriesFor k (.single (.entry (.file i))) = [(k, .file i)]) ∧
    (∀ k s, entriesFor k (.single (.other s)) = [(k, .str s)]) ∧
    (∀ k, entriesFor k (.single .nullish) = []) ∧
    (∀ k items, entriesFor k (.arr items)
      = (items.filterMap coerce).map (fun e => (k, e))) ∧
    (∀ r : FormDataRecord, ∀ p ∈ fromFormDataRecord r, p.1 ∈ r.map Prod.fst) := by
  refine ⟨fromFormDataRecord_eq, ?_, ?_, ?_, ?_, ?_, mem_fromFormDataRecord_key⟩
  · intro k s; rfl
  · intro k i; rfl
  · intro k s; rfl
  · intro k; rfl
  · intro k items; rfl

theorem fromRecord_behaviour_witness :
    ("a" : String) ∈
      (([("a", RecValue.single (.entry (.str "x")))] : FormDataRecord).map Prod.fst) :=
  fromRecord_behaviour.2.2.2.2.2.2 [("a", RecValue.single (.entry (.str "x")))]
    ("a", EntryVal.str "x") (by decide)

theorem toRecord_fromRecord_roundTrip_witness :
    toRecord (fromFormDataRecord
      [("a", RecValue.single (.entry (.str "x"))),
       ("b", RecValue.arr [.entry (.str "1"), .entry (.file 0)])])
    = [("a", RecValue.single (.entry (.str "x"))),
       ("b", RecValue.arr [.entry (.str "1"), .entry (.file 0)])] :=
  toRecord_fromRecord_roundTrip _ (by decide) (by decide)

theorem toRecord_grouping_witness :
    mapGet (toRecord [("a", EntryVal.str "1"), ("b", EntryVal.str "x"),
        ("a", EntryVal.str "2")]) "b"
      = some (RecValue.single (.entry (.str "x"))) ∧
    mapGet (toRecord [("a", EntryVal.str "1"), ("b", EntryVal.str "x"),
        ("a", EntryVal.str "2")]) "a"
      = some (RecValue.arr [.entry (.str "1"), .entry (.str "2")]) := by
  constructor
  · exact (toRecord_grouping _).2.1 "b" (.str "x") (by decide)
  · have h := (toRecord_grouping
      [("a", EntryVal.str "1"), ("b", EntryVal.str "x"),
       ("a", EntryVal.str "2")]).2.2.1 "a" (by decide)
    rw [show groupValues
        [("a", EntryVal.str "1"), ("b", EntryVal.str "x"),
         ("a", EntryVal.str "2")] "a"
      = [EntryVal.str "1", EntryVal.str "2"] from by decide] at h
    exact h

theorem singleton_list_collapse_witness :
    mapGet (toRecord (fromFormDataRecord
        [("k", RecValue.arr [.entry (.str "v")])])) "k"
      = some (RecValue.single (.entry (.str "v"))) :=
  singleton_list_collapse _ (by decide) "k" (.str "v") (by decide)

/-- A validation issue tree (effect ParseResult.ParseIssue), with the
actual payloads abstracted to an arbitrary type. Pointer prepends its
own path segment(s), Composite holds children sharing a path, and
Refinement and Transformation wrap a single child with an actual value
at the boundary; Type, Missing, Unexpected and Forbidden are leaves.
Missing carries no actual property, so the traversal reads none for
it; the SingleOrNonEmpty encodings of a pointer's path and of a
composite's children are modelled directly as lists, matching their
normalization to arrays at the top of each case. -/
inductive ParseIssue (α : Type) : Type where
  | pointer (path : List String) (actual : Option α) (issue : ParseIssue α)
  | composite (actual : Option α) (issues : List (ParseIssue α))
  | refinement (actual : Option α) (issue : ParseIssue α)
  | transformation (actual : Option α) (issue : ParseIssue α)
  | typeIssue (actual : Option α)
  | missing
  | unexpected (actual : Option α)
  | forbidden (actual : Option α)

/-- JS Array.prototype.join with separator ".". -/
def joinDot (segs : List String) : String :=
  String.intercalate "." segs

mutual

/-- collectActualValues (FormModelFormatter.ts lines 71-117): the
recursive traversal emitting ordered (joined path, actual) entries. -/
def collectActualValues {α : Type} :
    ParseIssue α → List String → List (String × Option α)
  | .pointer ps actual child, path =>
      [(joinDot (path ++ ps), actual)] ++ collectActualValues child (path ++ ps)
  | .composite actual issues, path =>
      (joinDot path, actual) :: collectChildren issues path
  | .refinement actual child, path =>
      [(joinDot path, actual)] ++ collectActualValues child path
  | .transformation actual child, path =>
      [(joinDot path, actual)] ++ collectActualValues child path
  | .typeIssue actual, path => [(joinDot path, actual)]
  | .missing, path => [(joinDot path, none)]
  | .unexpected actual, path => [(joinDot path, actual)]
  | .forbidden actual, path => [(joinDot path, actual)]

/-- The flatMap over a composite's children. -/
def collectChildren {α : Type} :
    List (ParseIssue α) → List String → List (String × Option α)
  | [], _ => []
  | i :: is, path => collectActualValues i path ++ collectChildren is path

end

theorem collectChildren_eq_flatMap {α : Type} (issues : List (ParseIssue α))
    (path : List String) :
    collectChildren issues path
      = issues.flatMap (fun c => collectActualValues c path) := by
  induction issues with
  | nil => rfl
  | cons i is ih => rw [collectChildren, List.flatMap_cons, ih]

/-- C4: the exact traversal order of collectActualValues on every
node kind: Pointer extends the path and emits its entry before
recursing with the new path; Composite emits its own entry first and
concatenates the children's recursions at the unchanged path;
Refinement and Transformation emit their entry then recurse at the
unchanged path; the four leaf kinds emit exactly one entry. -/
theorem collect_traversal {α : Type} :
    (∀ (ps : List String) (a : Option α) (child : ParseIssue α) (path : List String),
      collectActualValues (.pointer ps a child) path
        = (joinDot (path ++ ps), a) :: collectActualValues child (path ++ ps)) ∧
    (∀ (a : Option α) (issues : List (ParseIssue α)) (path : List String),
      collectActualValues (.composite a issues) path
        = (joinDot path, a) :: issues.flatMap (fun c => collectActualValues c path)) ∧
    (∀ (a : Option α) (child : ParseIssue α) (path : List String),
      collectActualValues (.refinement a child) path
        = (joinDot path, a) :: collectActualValues child path) ∧
    (∀ (a : Option α) (child : ParseIssue α) (path : List String),
      collectActualValues (.transformation a child) path
        = (joinDot path, a) :: collectActualValues child path) ∧
    (∀ (a : Option α) (path : List String),
      collectActualValues (ParseIssue.typeIssue a) path = [(joinDot path, a)]) ∧
    (∀ path : List String,
      collectActualValues (ParseIssue.missing : ParseIssue α) path
        = [(joinDot path, none)]) ∧
    (∀ (a : Option α) (path : List String),
      collectActualValues (ParseIssue.unexpected a) path = [(joinDot path, a)]) ∧
    (∀ (a : Option α) (path : List String),
      collectActualValues (ParseIssue.forbidden a) path = [(joinDot path, a)]) := by
  refine ⟨?_, ?_, ?_, ?_, ?_, ?_, ?_, ?_⟩
  · intro ps a child path
    rw [collectActualValues, List.singleton_append]
  · intro a issues path
    rw [collectActualValues, collectChildren_eq_flatMap]
  · intro a child path
    rw [collectActualValues, List.singleton_append]
  · intro a child path
    rw [collectActualValues, List.singleton_append]
  · intro a path
    rw [collectActualValues]
  · intro path
    rw [collectActualValues]
  · intro a path
    rw [collectActualValues]
  · intro a path
    rw [collectActualValues]

/-- new Map(entries): fold the ordered entry list into a keyed map,
a later entry overwriting the value of an earlier one with its key. -/
def buildActualMap {α : Type} (entries : List (String × Option α)) :
    List (String × Option α) :=
  entries.foldl (fun m p => mapSet m p.1 p.2) []

theorem mapGet_map_replace {β : Type} (k : String) (v : β) :
    ∀ m : List (String × β),
      (m.any (fun p => p.1 == k) = true →
        mapGet (m.map (fun p => if p.1 == k then (k, v) else p)) k = some v) ∧
      (∀ k', k' ≠ k →
        mapGet (m.map (fun p => if p.1 == k then (k, v) else p)) k'
          = mapGet m k') := by
  intro m
  induction m with
  | nil => exact ⟨by intro h; simp at h, fun k' _ => rfl⟩
  | cons q m2 ih =>
      constructor
      · intro hany
        by_cases hq : q.1 = k
        · simp [mapGet, List.find?_cons, hq]
        · have hqb : (q.1 == k) = false := by simp [hq]
          rw [List.any_cons, hqb, Bool.false_or] at hany
          rw [List.map_cons, if_neg (by simp [hq])]
          unfold mapGet
          rw [List.find?_cons, hqb]
          exact ih.1 hany
      · intro k' hk'
        by_cases hq : q.1 = k
        · have hkk : k ≠ k' := fun h => hk' h.symm
          have h1 : ((k, v).1 == k') = false := by simp [hkk]
          have h2 : (q.1 == k') = false := by simp [hq, hkk]
          rw [List.map_cons, if_pos (by simp [hq])]
          unfold mapGet
          rw [List.find?_cons, h1, List.find?_cons, h2]
          exact ih.2 k' hk'
        · rw [List.map_cons, if_neg (by simp [hq])]
          unfold mapGet
          rw [List.find?_cons, List.find?_cons]
          cases hc : (q.1 == k') with
          | true => rfl
          | false => exact ih.2 k' hk'

theorem mapGet_append_single {β : Type} (m : List (String × β)) (k k' : String) (v : β)
    (hany : m.any (fun p => p.1 == k) = false) :
    mapGet (m ++ [(k, v)]) k' = if k' = k then some v else mapGet m k' := by
  unfold mapGet
  rw [List.find?_append]
  by_cases hk : k' = k
  · subst hk
    have hnone : m.find? (fun p => p.1 == k') = none := by
      rw [List.find?_eq_none]
      intro p hp
      have := List.any_eq_false.mp hany p hp
      simpa using this
    rw [hnone, if_pos rfl]
    simp [List.find?_cons]
  · rw [if_neg hk]
    cases hf : m.find? (fun p => p.1 == k') with
    | some p => simp
    | none =>
        have hkk : k ≠ k' := fun h => hk h.symm
        have hc : ((k, v).1 == k') = false := by simp [hkk]
        simp [List.find?_cons, hc]

theorem mapGet_mapSet {β : Type} (m : List (String × β)) (k k' : String) (v : β) :
    mapGet (mapSet m k v) k' = if k' = k then some v else mapGet m k' := by
  unfold mapSet
  cases hany : m.any (fun p => p.1 == k) with
  | true =>
      rw [if_pos rfl]
      by_cases hk : k' = k
      · subst hk
        rw [if_pos rfl]
        exact (mapGet_map_replace k' v m).1 hany
      · rw [if_neg hk]
        exact (mapGet_map_replace k v m).2 k' hk
  | false =>
      rw [if_neg (by simp)]
      exact mapGet_append_single m k k' v hany

theorem mapGet_foldl_mapSet {γ β : Type} (f : γ → String) (g : γ → β) :
    ∀ (xs : List γ) (m : List (String × β)) (k : String),
      mapGet (xs.foldl (fun r x => mapSet r (f x) (g x)) m) k
        = match xs.reverse.find? (fun x => f x == k) with
          | some x => some (g x)
          | none => mapGet m k := by
  intro xs
  induction xs with
  | nil => intro m k; rfl
  | cons x xs ih =>
      intro m k
      rw [List.foldl_cons, ih, List.reverse_cons, List.find?_append]
      cases hf : xs.reverse.find? (fun y => f y == k) with
      | some y => simp
      | none =>
          by_cases hxk : f x = k
          · have hc : (f x == k) = true := by simp [hxk]
            rw [mapGet_mapSet, if_pos hxk.symm]
            simp [List.find?_cons, hc]
          · have hc : (f x == k) = false := by simp [hxk]
            rw [mapGet_mapSet, if_neg (fun h => hxk h.symm)]
            simp [List.find?_cons, hc]

/-- C5: folding the collector's ordered entry list into the path-keyed
map is last-write-wins (the retrieved value is the one of the
last-produced entry for that path), and in particular for a
Transformation node over a leaf reporting at the same path the leaf's
actual value is the one present in the final map. -/
theorem lastWriteWins {α : Type} :
    (∀ (es : List (String × Option α)) (k : String),
      mapGet (buildActualMap es) k
        = (es.reverse.find? (fun p => p.1 == k)).map Prod.snd) ∧
    (∀ (a b : Option α) (path : List String),
      mapGet (buildActualMap
          (collectActualValues (.transformation a (.typeIssue b)) path))
        (joinDot path) = some b) := by
  have h1 : ∀ (es : List (String × Option α)) (k : String),
      mapGet (buildActualMap es) k
        = (es.reverse.find? (fun p => p.1 == k)).map Prod.snd := by
    intro es k
    rw [buildActualMap,
      mapGet_foldl_mapSet (fun p => p.1) (fun p => p.2) es [] k]
    cases hf : es.reverse.find? (fun p => p.1 == k) <;> simp [mapGet]
  refine ⟨h1, ?_⟩
  intro a b path
  rw [collectActualValues, collectActualValues, h1]
  simp [List.find?_cons]

mutual

/-- Specification-side collector keeping the unjoined segment lists, to
state that every emitted key is the dot-join of the segments in force
at the emitting node. -/
def collectSegs {α : Type} :
    ParseIssue α → List String → List (List String × Option α)
  | .pointer ps a child, path => (path ++ ps, a) :: collectSegs child (path ++ ps)
  | .composite a issues, path => (path, a) :: collectSegsChildren issues path
  | .refinement a child, path => (path, a) :: collectSegs child path
  | .transformation a child, path => (path, a) :: collectSegs child path
  | .typeIssue a, path => [(path, a)]
  | .missing, path => [(path, none)]
  | .unexpected a, path => [(path, a)]
  | .forbidden a, path => [(path, a)]

def collectSegsChildren {α : Type} :
    List (ParseIssue α) → List String → List (List String × Option α)
  | [], _ => []
  | i :: is, path => collectSegs i path ++ collectSegsChildren is path

end

mutual

theorem collect_eq_segs {α : Type} :
    ∀ (issue : ParseIssue α) (path : List String),
      collectActualValues issue path
        = (collectSegs issue path).map (fun q => (joinDot q.1, q.2))
  | .pointer ps a child, path => by
      rw [collectActualValues, collectSegs, List.map_cons,
        collect_eq_segs child (path ++ ps), List.singleton_append]
  | .composite a issues, path => by
      rw [collectActualValues, collectSegs, List.map_cons,
        children_eq_segs issues path]
  | .refinement a child, path => by
      rw [collectActualValues, collectSegs, List.map_cons,
        collect_eq_segs child path, List.singleton_append]
  | .transformation a child, path => by
      rw [collectActualValues, collectSegs, List.map_cons,
        collect_eq_segs child path, List.singleton_append]
  | .typeIssue a, path => by
      rw [collectActualValues, collectSegs, List.map_cons, List.map_nil]
  | .missing, path => by
      rw [collectActualValues, collectSegs, List.map_cons, List.map_nil]
  | .unexpected a, path => by
      rw [collectActualValues, collectSegs, List.map_cons, List.map_nil]
  | .forbidden a, path => by
      rw [collectActualValues, collectSegs, List.map_cons, List.map_nil]

theorem children_eq_segs {α : Type} :
    ∀ (issues : List (ParseIssue α)) (path : List String),
      collectChildren issues path
        = (collectSegsChildren issues path).map (fun q => (joinDot q.1, q.2))
  | [], _ => by
      rw [collectChildren, collectSegsChildren, List.map_nil]
  | i :: is, path => by
      rw [collectChildren, collectSegsChildren, List.map_append,
        collect_eq_segs i path, children_eq_segs is path]

end

/-- C9: every collected entry's key is its segment list joined with
"."; the empty segment sequence joins to the empty string and a single
segment joins to itself, so a root-level leaf with no enclosing
Pointer lands under key "" and a Pointer with segments ["name"] under
the root lands under key "name". -/
theorem path_joining {α : Type} :
    (∀ (issue : ParseIssue α) (path : List String),
      collectActualValues issue path
        = (collectSegs issue path).map (fun q => (joinDot q.1, q.2))) ∧
    (joinDot [] = "") ∧
    (∀ s : String, joinDot [s] = s) ∧
    (∀ a : α,
      mapGet (buildActualMap
          (collectActualValues (ParseIssue.typeIssue (some a)) [])) ""
        = some (some a)) ∧
    (∀ a : α,
      mapGet (buildActualMap
          (collectActualValues
            (ParseIssue.pointer ["name"] none (.typeIssue (some a))) []))
        "name" = some (some a)) := by
  refine ⟨collect_eq_segs, rfl, fun s => rfl, ?_, ?_⟩
  · intro a
    rw [collectActualValues]
    rw [show joinDot ([] : List String) = "" from rfl]
    simp [buildActualMap, mapSet, mapGet, List.find?_cons]
  · intro a
    rw [collectActualValues, collectActualValues]
    rw [show joinDot ([] ++ ["name"]) = "name" from rfl]
    simp [buildActualMap, mapSet, mapGet, List.find?_cons, List.any_cons]

/-- One entry of the external ArrayFormatter output: the leaf issue's
path segments and the formatted message. -/
structure ArrayIssue : Type where
  path : List String
  message : String

/-- The merged value stored per path: the collected actual value (none
models undefined) and the formatted message. -/
structure IssueValue (α : Type) : Type where
  actual : Option α
  message : String

/-- FormModelFormatter.formatIssue (lines 34-57): build the actual-value
map from the traversal of the issue tree, then fold the externally
produced ArrayFormatter entries into a result record keyed by the
dot-joined path, storing under each key the actual value looked up in
the map (undefined when absent) together with the formatted message.
The ArrayFormatter is an external collaborator, so its output list is
a parameter. -/
def formatIssue {α : Type} (issue : ParseIssue α)
    (arrayIssues : List ArrayIssue) : List (String × IssueValue α) :=
  arrayIssues.foldl
    (fun result ai =>
      mapSet result (joinDot ai.path)
        ⟨(mapGet (buildActualMap (collectActualValues issue []))
            (joinDot ai.path)).join,
         ai.message⟩)
    []

/-- C6: the merged result maps each formatted entry's dot-joined path
to the collector's actual value for that key (undefined when absent)
paired with the formatted message (the last one for a repeated path),
and its key set is exactly the formatted-message list's path set, so
paths present only in the actual-value map are dropped. -/
theorem merge_result {α : Type} (issue : ParseIssue α)
    (ais : List ArrayIssue) (k : String) :
    (mapGet (formatIssue issue ais) k
      = (ais.reverse.find? (fun ai => joinDot ai.path == k)).map
          (fun ai =>
            ⟨(mapGet (buildActualMap (collectActualValues issue [])) k).join,
             ai.message⟩)) ∧
    ((mapGet (formatIssue issue ais) k).isSome
      ↔ k ∈ ais.map (fun ai => joinDot ai.path)) := by
  have h1 : mapGet (formatIssue issue ais) k
      = (ais.reverse.find? (fun ai => joinDot ai.path == k)).map
          (fun ai =>
            ⟨(mapGet (buildActualMap (collectActualValues issue [])) k).join,
             ai.message⟩) := by
    rw [formatIssue, mapGet_foldl_mapSet (fun ai => joinDot ai.path) _ ais [] k]
    cases hf : ais.reverse.find? (fun ai => joinDot ai.path == k) with
    | none => simp [mapGet]
    | some ai =>
        have hk : joinDot ai.path = k := by
          simpa using List.find?_some hf
        simp [hk]
  refine ⟨h1, ?_⟩
  rw [h1]
  rw [show ∀ o : Option ArrayIssue, (o.map (fun ai =>
      (⟨(mapGet (buildActualMap (collectActualValues issue [])) k).join,
        ai.message⟩ : IssueValue α))).isSome = o.isSome
    from fun o => by cases o <;> rfl]
  rw [List.find?_isSome]
  constructor
  · rintro ⟨ai, hai, hp⟩
    rw [List.mem_reverse] at hai
    exact List.mem_map.mpr ⟨ai, hai, by simpa using hp⟩
  · intro hk
    obtain ⟨ai, hai, hjk⟩ := List.mem_map.mp hk
    exact ⟨ai, List.mem_reverse.mpr hai, by simp [hjk]⟩

/-- Effect.catchAll on a synchronous effect: pass a success through,
hand a failure to the handler. -/
def exceptCatchAll {A E E2 : Type} (e : Except E A) (h : E → Except E2 A) :
    Except E2 A :=
  match e with
  | .ok a => .ok a
  | .error err => h err

/-- Effect.flip: exchange the success and failure channels. -/
def exceptFlip {A E : Type} (e : Except E A) : Except A E :=
  match e with
  | .ok a => .error a
  | .error err => .ok err

/-- FormModelFormatter.formatError: formats the issue carried by the
parse error; it always succeeds with the merged mapping (its failure
channel is never, so the failure type is free). -/
def formatErrorE {α β : Type} (issue : ParseIssue α)
    (arrayFmt : ParseIssue α → List ArrayIssue) :
    Except β (List (String × IssueValue α)) :=
  .ok (formatIssue issue (arrayFmt issue))

/-- decodeFormModel (src FormData source, lines 146-163), with the
composed schema's validator and the external ArrayFormatter as
parameters: run the decode, and on a parse failure catch it, format
the issue tree and flip the formatter's success into the failure
channel. -/
def decodeFormModel {α A : Type} (validate : FormDataM → Except (ParseIssue α) A)
    (arrayFmt : ParseIssue α → List ArrayIssue) (formData : FormDataM) :
    Except (List (String × IssueValue α)) A :=
  exceptCatchAll (validate formData)
    (fun issue => exceptFlip (formatErrorE issue arrayFmt))

/-- C7: on validator success decodeFormModel returns the typed value
unchanged; on validator failure it fails with exactly the merged
path-keyed mapping built from the issue tree, never the raw tree. -/
theorem decode_channels {α A : Type} (validate : FormDataM → Except (ParseIssue α) A)
    (arrayFmt : ParseIssue α → List ArrayIssue) (fd : FormDataM) :
    (∀ a, validate fd = .ok a →
      decodeFormModel validate arrayFmt fd = .ok a) ∧
    (∀ issue, validate fd = .error issue →
      decodeFormModel validate arrayFmt fd
        = .error (formatIssue issue (arrayFmt issue))) := by
  constructor
  · intro a h
    rw [decodeFormModel, h]
    rfl
  · intro issue h
    rw [decodeFormModel, h]
    rfl

theorem decode_channels_witness :
    decodeFormModel (fun _ => Except.ok 5)
        (fun _ : ParseIssue String => ([] : List ArrayIssue)) []
      = Except.ok 5 ∧
    decodeFormModel (fun _ : FormDataM =>
        (Except.error (ParseIssue.typeIssue (some "oops"))
          : Except (ParseIssue String) Nat))
        (fun _ => [⟨["f"], "msg"⟩]) []
      = Except.error
          (formatIssue (ParseIssue.typeIssue (some "oops")) [⟨["f"], "msg"⟩]) :=
  ⟨(decode_channels _ _ []).1 5 rfl,
   (decode_channels _ _ []).2 (ParseIssue.typeIssue (some "oops")) rfl⟩

/-- The encoded-from type of a schema node, as a first-order type
language covering the cases the capability constraint distinguishes. -/
inductive EncodedType : Type where
  | stringT
  | fileT
  | numberT
  | booleanT
  | objectT
  | arrayT (elem : EncodedType)
deriving DecidableEq

/-- TS FormDataEntryValue = string | File, as a predicate on encoded
types. -/
def isFormDataEntryType : EncodedType → Bool
  | .stringT => true
  | .fileT => true
  | _ => false

/-- TS FormDataCoercibleValue = FormDataEntryValue or an array of
FormDataEntryValue, as a predicate on encoded types. -/
def isFormDataCoercibleType : EncodedType → Bool
  | .arrayT t => isFormDataEntryType t
  | t => isFormDataEntryType t

/-- The generic bound of the FormFieldModelSchema constructor (src
FormData source, lines 92-101): the schema's encoded type I must
extend FormDataCoercibleValue, so construction is accepted exactly
when the bound holds; this is checked by the type system before any
decode can be attempted. -/
def FormFieldModelSchemaAccepts (encoded : EncodedType) : Bool :=
  isFormDataCoercibleType encoded

/-- C8: a schema whose decoded-from type is number, boolean or a plain
nested object, or an array of one of those, is rejected by the Field
Descriptor constructor's type bound before any decode attempt. -/
theorem capability_rejection (t : EncodedType)
    (h : t = .numberT ∨ t = .booleanT ∨ t = .objectT) :
    FormFieldModelSchemaAccepts t = false ∧
    FormFieldModelSchemaAccepts (.arrayT t) = false := by
  rcases h with rfl | rfl | rfl <;> exact ⟨rfl, rfl⟩

theorem capability_rejection_witness :
    FormFieldModelSchemaAccepts EncodedType.numberT = false ∧
    FormFieldModelSchemaAccepts (EncodedType.arrayT EncodedType.numberT) = false :=
  capability_rejection EncodedType.numberT (Or.inl rfl)

end EffectForms
